import Mathlib

/-!
Verification of the directory-comparison and ignore-list helper tool
(`git_tool.py`): a shallow embedding of its pure logic, followed by
theorems about the embedded definitions.

Conventions of the embedding:
* relative file paths are `String`s with components separated by a
  forward slash (the tool normalizes `os.sep` to `/`);
* file contents are byte lists (`List Nat`); `filecmp.cmp` with
  `shallow=False` is byte-for-byte content equality;
* the text of an ignore file is a `List Char`;
* interactive input loops that re-prompt until a valid answer arrives
  are modelled by the resolved answer they eventually return.
-/

namespace GitTool

/-- Lexicographic (code-point) strict order on character lists, as used by
the host language when sorting path strings. -/
def listCharLt : List Char → List Char → Bool
  | [], [] => false
  | [], _ :: _ => true
  | _ :: _, [] => false
  | a :: as, b :: bs =>
    if a < b then true
    else if b < a then false
    else listCharLt as bs

/-- Lexicographic strict order on strings (Python's `<` on `str`,
used by `sorted`). -/
def strLt (a b : String) : Bool := listCharLt a.data b.data

/-- Helper for `pathParts`: split the remaining characters at every slash,
`acc` holding the (reversed) characters of the current component. -/
def pathPartsAux (acc : List Char) : List Char → List String
  | [] => [String.mk acc.reverse]
  | c :: rest =>
    if c = '/' then String.mk acc.reverse :: pathPartsAux [] rest
    else pathPartsAux (c :: acc) rest

/-- Components of a slash-separated relative path: the embedding of
`pathlib.Path(filepath).parts` for the normalized relative paths the
tool handles. -/
def pathParts (s : String) : List String := pathPartsAux [] s.data

/-- State of one directory tree as seen by `get_all_files`
(`git_tool.py` lines 299-356):
* `pathExists` is `root_path.exists()`;
* `gitFiles` is `some lines` when `git ls-files --cached --others
  --exclude-standard` succeeds, each line already stripped; `none` when
  the subprocess fails (not a repository / git missing);
* `walkFiles` is the list of relative paths of the regular files found
  by `root_path.rglob('*')`;
* `content f` is the byte content of file `f` under the root;
* `mtime f` is its modification time (never read by the tool's
  comparison logic). -/
structure DirTreeFS where
  pathExists : Bool
  gitFiles : Option (List String)
  walkFiles : List String
  content : String → List Nat
  mtime : String → Nat

/-- Embedding of `get_all_files(directory, ignore_names)`
(`git_tool.py` lines 299-356).  A missing root returns the empty set;
otherwise the primary `git ls-files` listing is filtered by
`ignore_names`, and the fallback walk additionally drops `.git`,
`__pycache__` components and `.DS_Store` files. -/
def get_all_files (d : DirTreeFS) (ignore_names : List String) : List String :=
  if d.pathExists = false then []
  else
    match d.gitFiles with
    | some lines =>
        lines.filter fun fp =>
          !(decide (fp = "")) &&
          !(ignore_names.any fun n => decide (n ∈ pathParts fp))
    | none =>
        d.walkFiles.filter fun fp =>
          let parts := pathParts fp
          !(decide (".git" ∈ parts)) && !(decide ("__pycache__" ∈ parts)) &&
          !(decide (parts.getLastD "" = ".DS_Store")) &&
          !(ignore_names.any fun n => decide (n ∈ parts))

/-- The four classification buckets built by the loop of `run_compare`
(`git_tool.py` lines 418-436). -/
structure Classification where
  common_files : List String
  diff_files : List String
  only_pro : List String
  only_dev : List String
deriving DecidableEq

/-- Embedding of the classification loop of `run_compare`
(`git_tool.py` lines 423-436): walk `all_files` in order, placing each
path in exactly one bucket; a path present on both sides is compared by
content (`filecmp.cmp(..., shallow=False)`). -/
def classifyFiles (pro_files dev_files : List String)
    (proContent devContent : String → List Nat) : List String → Classification
  | [] => ⟨[], [], [], []⟩
  | f :: rest =>
    let r := classifyFiles pro_files dev_files proContent devContent rest
    if f ∈ pro_files then
      if f ∈ dev_files then
        if ¬ (proContent f = devContent f) then
          { r with diff_files := f :: r.diff_files }
        else
          { r with common_files := f :: r.common_files }
      else
        { r with only_pro := f :: r.only_pro }
    else
      if f ∈ dev_files then
        { r with only_dev := f :: r.only_dev }
      else
        r

/-- Insert a string into a strictly sorted list, keeping it sorted and
duplicate-free.  `sortDedup` built from this models Python's
`sorted(list(s))` applied to the set `s`. -/
def insertStr (x : String) : List String → List String
  | [] => [x]
  | y :: ys =>
    if x = y then y :: ys
    else if strLt x y then x :: y :: ys
    else y :: insertStr x ys

/-- Sorted, duplicate-free list of the elements: the embedding of
`sorted(list(pro_files | dev_files))` (`git_tool.py` line 416). -/
def sortDedup : List String → List String
  | [] => []
  | x :: xs => insertStr x (sortDedup xs)

/-- The enumeration and classification part of `run_compare`
(`git_tool.py` lines 413-436), after the two roots passed their
existence checks. -/
def run_compareClassify (pro dev : DirTreeFS) (ignore_names : List String) :
    Classification :=
  let pro_files := get_all_files pro ignore_names
  let dev_files := get_all_files dev ignore_names
  let all_files := sortDedup (pro_files ++ dev_files)
  classifyFiles pro_files dev_files pro.content dev.content all_files

/-- Outcome of the validation prologue of `run_compare`
(`git_tool.py` lines 402-407): a missing root is reported and the
comparison aborted before any enumeration. -/
inductive CompareOutcome where
  | errorMissingPro
  | errorMissingDev
  | result (c : Classification)
deriving DecidableEq

/-- Embedding of `run_compare` up to the computed classification
(`git_tool.py` lines 395-436). -/
def run_compare (pro dev : DirTreeFS) (ignore_names : List String) :
    CompareOutcome :=
  if pro.pathExists = false then .errorMissingPro
  else if dev.pathExists = false then .errorMissingDev
  else .result (run_compareClassify pro dev ignore_names)

/-- One entry of the displayed list: internal tag, path, display label
(the ANSI color of the real tuple is dropped). -/
def targetList (c : Classification) : List (String × String × String) :=
  (if c.diff_files.isEmpty then []
   else c.diff_files.map fun f => ("diff", f, "MODIFIED")) ++
  (if c.only_dev.isEmpty then []
   else c.only_dev.map fun f => ("dev_only", f, "DEV ONLY")) ++
  (if c.only_pro.isEmpty then []
   else c.only_pro.map fun f => ("pro_only", f, "PRO ONLY"))

/-- Substring containment on character lists: the embedding of Python's
`pattern in content` check on the ignore-file text
(`git_tool.py` line 133). -/
def containsSub (pat : List Char) : List Char → Bool
  | [] => pat.isPrefixOf []
  | c :: rest => pat.isPrefixOf (c :: rest) || containsSub pat rest

/-- Number of (possibly overlapping) occurrences of `pat` in a text:
one per position at which `pat` starts. -/
def countOcc (pat : List Char) : List Char → Nat
  | [] => if pat.isPrefixOf ([] : List Char) then 1 else 0
  | c :: rest => (if pat.isPrefixOf (c :: rest) then 1 else 0) + countOcc pat rest

/-- The newline character written around an appended pattern. -/
def nl : Char := '\n'

/-- Embedding of the write phase of `add_to_gitignore`
(`git_tool.py` lines 128-140) acting on the ignore-file state
(`none` when `.gitignore` does not exist):
if the file exists and already contains the chosen pattern as a
substring, report success without writing; otherwise append
a newline, the pattern, and a newline (append mode creates a missing
file).  The `Bool` is the function's return value; I/O failures
(lines 141-143) are outside the pure model. -/
def addPatternToGitignore (state : Option (List Char)) (pattern : List Char) :
    Option (List Char) × Bool :=
  match state with
  | some content =>
      if containsSub pattern content then (some content, true)
      else (some (content ++ nl :: (pattern ++ [nl])), true)
  | none => (some (nl :: (pattern ++ [nl])), true)

/-- A normalized relative path split into its parent-directory
components and its final component, the shape `pathlib` exposes for the
paths `add_to_gitignore` receives.  Well-formed values have no empty,
`.` or slash-containing component. -/
structure RelPath where
  dirs : List (List Char)
  base : List Char

/-- Index of the last dot in a name, the embedding of
`name.rfind('.')` restricted to a found result. -/
def rfindDot : List Char → Option Nat
  | [] => none
  | c :: rest =>
    match rfindDot rest with
    | some i => some (i + 1)
    | none => if c = '.' then some 0 else none

/-- Embedding of `pathlib.PurePath.suffix` on a file name: the part of
the name from its last dot on, empty when the last dot is leading,
trailing or absent. -/
def pathSuffix (name : List Char) : List Char :=
  match rfindDot name with
  | some i => if 0 < i ∧ i < name.length - 1 then name.drop i else []
  | none => []

/-- Join path components with forward slashes, the embedding of
`str(path).replace(os.sep, '/')` on a relative path. -/
def joinSlash : List (List Char) → List Char
  | [] => []
  | [p] => p
  | p :: ps => p ++ '/' :: joinSlash ps

/-- Embedding of the candidate-pattern construction of
`add_to_gitignore` (`git_tool.py` lines 96-110): the exact
slash-normalized path, then `*` + extension when the name has a
suffix, then `parent/` when the parent is not `.` (in this model:
when `dirs` is nonempty). -/
def ignoreOptions (p : RelPath) : List (List Char) :=
  let exact := joinSlash (p.dirs ++ [p.base])
  let withExt :=
    if ¬ (pathSuffix p.base = []) then [exact] ++ [('*' :: pathSuffix p.base)]
    else [exact]
  if ¬ (p.dirs = []) then withExt ++ [joinSlash p.dirs ++ ['/']]
  else withExt

/-- Embedding of the whole of `add_to_gitignore`
(`git_tool.py` lines 88-143).  The input loop (lines 117-126) blocks
until `c` (cancel, modelled as `none`) or a valid option number
(modelled as `some i`); an out-of-range `i` cannot escape the real
loop, and the model maps it to the cancel result. -/
def add_to_gitignore (state : Option (List Char)) (target : RelPath)
    (choice : Option Nat) : Option (List Char) × Bool :=
  match choice with
  | none => (state, false)
  | some i =>
    match (ignoreOptions target)[i]? with
    | some pattern => addPatternToGitignore state pattern
    | none => (state, false)

/-- One line-level diff operation. -/
inductive DiffOp where
  | keep (line : String)
  | del (line : String)
  | ins (line : String)
deriving DecidableEq

/-- Whether a diff operation leaves its line unchanged. -/
def DiffOp.isKeep : DiffOp → Bool
  | keep _ => true
  | _ => false

/-- Modelled from the spec: the line-level comparison inside
`difflib.unified_diff` (the library routine called at
`git_tool.py` line 370 is not part of this repository).  Equal heads
are kept, unequal heads become a deletion plus an insertion; what the
claims rely on is only that equal sequences produce no operations other
than `keep`. -/
def diffOps : List String → List String → List DiffOp
  | [], [] => []
  | [], b :: bs => .ins b :: diffOps [] bs
  | a :: as, [] => .del a :: diffOps as []
  | a :: as, b :: bs =>
    if a = b then .keep a :: diffOps as bs
    else .del a :: .ins b :: diffOps as bs

/-- Render one diff operation as a unified-diff line. -/
def renderOp : DiffOp → String
  | .keep l => " " ++ l
  | .del l => "-" ++ l
  | .ins l => "+" ++ l

/-- Modelled from the spec: `difflib.unified_diff(f1_lines, f2_lines,
fromfile='PRO', tofile='DEV', lineterm='')` — a generator that yields
nothing at all when the two line sequences are equal, and otherwise
yields the two file headers followed by hunk lines. -/
def unified_diff (a b : List String) : List String :=
  let ops := diffOps a b
  if ops.all DiffOp.isKeep then []
  else "--- PRO" :: "+++ DEV" :: "@@" :: ops.map renderOp

/-- The message printed when the iterated diff produced no lines
(`git_tool.py` line 390). -/
def noDiffMessage : String := "※ 差分はありません（バイナリ等の可能性あり）"

/-- Embedding of the output of `show_file_diff`
(`git_tool.py` lines 358-393) after the two files decoded to the given
line lists: the diff lines themselves, or the explicit no-difference
message when the diff is empty (`has_diff` stayed false). -/
def show_file_diff (proLines devLines : List String) : List String :=
  let d := unified_diff proLines devLines
  if d = [] then [noDiffMessage] else d

/-- Environment of the ignore action inside the compare session
(`git_tool.py` lines 507-534): the version-control roots the two trees
may have, and the text of the ignore file at the DEV root. -/
structure IgnoreEnv where
  proGitRoot : Option String
  devGitRoot : Option String
  devIgnoreFile : Option (List Char)

/-- Embedding of the `i N` branch of the compare session
(`git_tool.py` lines 516-529): resolve the DEV tree's git root only;
without it, report failure and change nothing; with it, run
`add_to_gitignore`, and on success re-run the whole comparison on the
current trees instead of patching the stale classification `old`.
The result is the new ignore-file state and the classification the
session displays next. -/
def compareIgnoreStep (old : Classification) (env : IgnoreEnv)
    (target : RelPath) (choice : Option Nat)
    (curPro curDev : DirTreeFS) (ignore_names : List String) :
    Option (List Char) × Classification :=
  match env.devGitRoot with
  | none => (env.devIgnoreFile, old)
  | some _ =>
    let res := add_to_gitignore env.devIgnoreFile target choice
    if res.2 then (res.1, run_compareClassify curPro curDev ignore_names)
    else (res.1, old)

section ClassifierLemmas

variable {P D : List String} {pc dc : String → List Nat}

/-- The classification loop computes, bucket by bucket, a filter of the
traversed list. -/
theorem classifyFiles_eq_filters (P D : List String) (pc dc : String → List Nat)
    (L : List String) :
    classifyFiles P D pc dc L =
      { common_files :=
          L.filter fun f => decide (f ∈ P) && decide (f ∈ D) && decide (pc f = dc f),
        diff_files :=
          L.filter fun f => decide (f ∈ P) && decide (f ∈ D) && !(decide (pc f = dc f)),
        only_pro := L.filter fun f => decide (f ∈ P) && !(decide (f ∈ D)),
        only_dev := L.filter fun f => !(decide (f ∈ P)) && decide (f ∈ D) } := by
  induction L with
  | nil => rfl
  | cons f rest ih =>
    simp only [classifyFiles, ih]
    by_cases h1 : f ∈ P <;> by_cases h2 : f ∈ D <;> by_cases h3 : pc f = dc f <;>
      simp [List.filter_cons, h1, h2, h3]

theorem mem_common_files {L : List String} {f : String} :
    f ∈ (classifyFiles P D pc dc L).common_files ↔
      f ∈ L ∧ f ∈ P ∧ f ∈ D ∧ pc f = dc f := by
  rw [classifyFiles_eq_filters]
  simp [List.mem_filter, and_assoc]

theorem mem_diff_files {L : List String} {f : String} :
    f ∈ (classifyFiles P D pc dc L).diff_files ↔
      f ∈ L ∧ f ∈ P ∧ f ∈ D ∧ ¬ (pc f = dc f) := by
  rw [classifyFiles_eq_filters]
  simp [List.mem_filter, and_assoc]

theorem mem_only_pro {L : List String} {f : String} :
    f ∈ (classifyFiles P D pc dc L).only_pro ↔ f ∈ L ∧ f ∈ P ∧ f ∉ D := by
  rw [classifyFiles_eq_filters]
  simp [List.mem_filter, and_assoc]

theorem mem_only_dev {L : List String} {f : String} :
    f ∈ (classifyFiles P D pc dc L).only_dev ↔ f ∈ L ∧ f ∉ P ∧ f ∈ D := by
  rw [classifyFiles_eq_filters]
  simp [List.mem_filter, and_assoc]

end ClassifierLemmas

section SortLemmas

theorem mem_insertStr {a x : String} {l : List String} :
    a ∈ insertStr x l ↔ a = x ∨ a ∈ l := by
  induction l with
  | nil => simp [insertStr]
  | cons y ys ih =>
    by_cases h1 : x = y
    · subst h1
      simp only [insertStr, if_pos rfl]
      constructor
      · intro h; exact Or.inr h
      · rintro (rfl | h)
        · exact List.mem_cons_self _ _
        · exact h
    · by_cases h2 : strLt x y
      · simp only [insertStr, if_neg h1, if_pos h2]
        simp
      · simp only [insertStr, if_neg h1, if_neg h2]
        simp [ih]
        tauto

theorem mem_sortDedup {a : String} {l : List String} :
    a ∈ sortDedup l ↔ a ∈ l := by
  induction l with
  | nil => simp [sortDedup]
  | cons x xs ih => simp [sortDedup, mem_insertStr, ih]

theorem listCharLt_trans {a b c : List Char}
    (h1 : listCharLt a b = true) (h2 : listCharLt b c = true) :
    listCharLt a c = true := by
  induction a generalizing b c with
  | nil =>
    cases b with
    | nil => simp [listCharLt] at h1
    | cons y ys =>
      cases c with
      | nil => simp [listCharLt] at h2
      | cons z zs => simp [listCharLt]
  | cons x xs ih =>
    cases b with
    | nil => simp [listCharLt] at h1
    | cons y ys =>
      cases c with
      | nil => simp [listCharLt] at h2
      | cons z zs =>
        simp only [listCharLt] at h1 h2 ⊢
        by_cases hxy : x < y
        · by_cases hyz : y < z
          · simp [lt_trans hxy hyz]
          · by_cases hzy : z < y
            · simp [hyz, hzy] at h2
            · have : y = z := le_antisymm (not_lt.mp hzy) (not_lt.mp hyz)
              subst this
              simp [hxy]
        · by_cases hyx : y < x
          · simp [hxy, hyx] at h1
          · have hxey : x = y := le_antisymm (not_lt.mp hyx) (not_lt.mp hxy)
            subst hxey
            rw [if_neg hxy, if_neg hyx] at h1
            by_cases hyz : x < z
            · simp [hyz]
            · by_cases hzy : z < x
              · simp [hyz, hzy] at h2
              · have : x = z := le_antisymm (not_lt.mp hzy) (not_lt.mp hyz)
                subst this
                rw [if_neg hyz, if_neg hzy] at h2 ⊢
                exact ih h1 h2

theorem listCharLt_total {a b : List Char} (hne : ¬ (a = b))
    (h : listCharLt a b = false) : listCharLt b a = true := by
  induction a generalizing b with
  | nil =>
    cases b with
    | nil => exact absurd rfl hne
    | cons y ys => simp [listCharLt] at h
  | cons x xs ih =>
    cases b with
    | nil => simp [listCharLt]
    | cons y ys =>
      simp only [listCharLt] at h ⊢
      by_cases hxy : x < y
      · simp [hxy] at h
      · by_cases hyx : y < x
        · simp [hyx]
        · have hxey : x = y := le_antisymm (not_lt.mp hyx) (not_lt.mp hxy)
          subst hxey
          simp only [if_neg hxy] at h ⊢
          have hne' : ¬ (xs = ys) := by
            intro hh; exact hne (by rw [hh])
          exact ih hne' h

theorem strLt_trans {a b c : String} (h1 : strLt a b = true)
    (h2 : strLt b c = true) : strLt a c = true :=
  listCharLt_trans h1 h2

theorem strLt_total {a b : String} (hne : ¬ (a = b))
    (h : strLt a b = false) : strLt b a = true := by
  apply listCharLt_total _ h
  intro hd
  apply hne
  cases a; cases b
  exact congrArg String.mk hd

theorem pairwise_insertStr {x : String} {l : List String}
    (h : l.Pairwise (fun a b => strLt a b = true)) :
    (insertStr x l).Pairwise (fun a b => strLt a b = true) := by
  induction l with
  | nil => simp [insertStr]
  | cons y ys ih =>
    rcases List.pairwise_cons.mp h with ⟨hy, hys⟩
    by_cases h1 : x = y
    · subst h1
      simpa [insertStr] using h
    · by_cases h2 : strLt x y
      · rw [insertStr, if_neg h1, if_pos h2]
        refine List.pairwise_cons.mpr ⟨?_, h⟩
        intro b hb
        rcases List.mem_cons.mp hb with rfl | hb'
        · exact h2
        · exact strLt_trans h2 (hy b hb')
      · rw [insertStr, if_neg h1, if_neg h2]
        refine List.pairwise_cons.mpr ⟨?_, ih hys⟩
        intro b hb
        rcases mem_insertStr.mp hb with rfl | hb'
        · exact strLt_total h1 (Bool.eq_false_iff.mpr h2)
        · exact hy b hb'

theorem pairwise_sortDedup {l : List String} :
    (sortDedup l).Pairwise (fun a b => strLt a b = true) := by
  induction l with
  | nil => simp [sortDedup]
  | cons x xs ih => exact pairwise_insertStr ih

end SortLemmas

section SubstringLemmas

theorem isPrefixOf_append_self (p t : List Char) :
    p.isPrefixOf (p ++ t) = true := by
  induction p with
  | nil => simp [List.isPrefixOf]
  | cons a as ih => simp [List.isPrefixOf, ih]

theorem length_le_of_isPrefixOf {p s : List Char} (h : p.isPrefixOf s = true) :
    p.length ≤ s.length := by
  induction p generalizing s with
  | nil => simp
  | cons a as ih =>
    cases s with
    | nil => simp [List.isPrefixOf] at h
    | cons b bs =>
      simp only [List.isPrefixOf, Bool.and_eq_true] at h
      simpa using ih h.2

theorem isPrefixOf_nil_of_ne {p : List Char} (h : p ≠ []) :
    p.isPrefixOf ([] : List Char) = false := by
  cases p with
  | nil => exact absurd rfl h
  | cons a as => rfl

theorem countOcc_eq_zero_of_short {pat s : List Char}
    (h : s.length < pat.length) : countOcc pat s = 0 := by
  induction s with
  | nil =>
    have hne : pat ≠ [] := by
      intro hh; rw [hh] at h; simp at h
    simp [countOcc, isPrefixOf_nil_of_ne hne]
  | cons c rest ih =>
    have h1 : pat.isPrefixOf (c :: rest) = false := by
      cases hp : pat.isPrefixOf (c :: rest)
      · rfl
      · exact absurd (length_le_of_isPrefixOf hp) (by omega)
    have h2 : rest.length < pat.length := by simp at h ⊢; omega
    simp [countOcc, h1, ih h2]

theorem countOcc_self {pat : List Char} (h : pat ≠ []) :
    countOcc pat pat = 1 := by
  cases pat with
  | nil => exact absurd rfl h
  | cons p rest =>
    have hpre : (p :: rest).isPrefixOf (p :: rest) = true := by
      have h0 := isPrefixOf_append_self (p :: rest) []
      rwa [List.append_nil] at h0
    have hrest : countOcc (p :: rest) rest = 0 :=
      countOcc_eq_zero_of_short (by simp)
    simp [countOcc, hpre, hrest]

theorem isPrefixOf_append_nl {pat : List Char} (hn : nl ∉ pat)
    (zs ys : List Char) :
    pat.isPrefixOf (zs ++ nl :: ys) = pat.isPrefixOf zs := by
  induction pat generalizing zs with
  | nil => simp [List.isPrefixOf]
  | cons p ps ih =>
    cases zs with
    | nil =>
      have hpnl : (p == nl) = false := by
        have : p ≠ nl := fun hh => hn (hh ▸ List.mem_cons_self _ _)
        simp [this]
      simp [List.isPrefixOf, hpnl]
    | cons z zs' =>
      simp only [List.cons_append, List.isPrefixOf, List.append_eq]
      rw [ih (fun hh => hn (List.mem_cons_of_mem _ hh)) zs']

theorem countOcc_append_nl {pat : List Char} (hn : nl ∉ pat) (hne : pat ≠ [])
    (xs ys : List Char) :
    countOcc pat (xs ++ nl :: ys) = countOcc pat xs + countOcc pat ys := by
  induction xs with
  | nil =>
    have h1 : pat.isPrefixOf (nl :: ys) = false := by
      have := isPrefixOf_append_nl hn [] ys
      simpa [isPrefixOf_nil_of_ne hne] using this
    simp [countOcc, h1, isPrefixOf_nil_of_ne hne]
  | cons x xs' ih =>
    have h1 : pat.isPrefixOf (x :: (xs' ++ nl :: ys)) = pat.isPrefixOf (x :: xs') := by
      have := isPrefixOf_append_nl hn (x :: xs') ys
      simpa using this
    simp only [List.cons_append, countOcc, List.append_eq, h1, ih]
    omega

theorem countOcc_eq_zero_of_not_contains {pat s : List Char}
    (h : containsSub pat s = false) : countOcc pat s = 0 := by
  induction s with
  | nil =>
    simp only [containsSub] at h
    simp [countOcc, h]
  | cons c rest ih =>
    simp only [containsSub, Bool.or_eq_false_iff] at h
    simp [countOcc, h.1, ih h.2]

theorem containsSub_of_isPrefixOf {pat s : List Char}
    (h : pat.isPrefixOf s = true) : containsSub pat s = true := by
  cases s with
  | nil => simpa [containsSub] using h
  | cons c rest => simp [containsSub, h]

theorem containsSub_append_self (pat xs ys : List Char) :
    containsSub pat (xs ++ (pat ++ ys)) = true := by
  induction xs with
  | nil =>
    simpa using containsSub_of_isPrefixOf (isPrefixOf_append_self pat ys)
  | cons x xs' ih => simp [containsSub, ih]

end SubstringLemmas

section DiffLemmas

theorem diffOps_self (a : List String) : diffOps a a = a.map DiffOp.keep := by
  induction a with
  | nil => simp [diffOps]
  | cons x xs ih => simp [diffOps, ih]

theorem unified_diff_self (a : List String) : unified_diff a a = [] := by
  have hall : (a.map DiffOp.keep).all DiffOp.isKeep = true := by
    simp [List.all_eq_true, DiffOp.isKeep]
  simp [unified_diff, diffOps_self, hall]

end DiffLemmas

section PipelineLemmas

theorem run_compareClassify_mtime (pro dev : DirTreeFS) (ign : List String)
    (m1 m2 : String → Nat) :
    run_compareClassify { pro with mtime := m1 } { dev with mtime := m2 } ign =
      run_compareClassify pro dev ign := rfl

theorem rcc_common {pro dev : DirTreeFS} {ign : List String} {f : String} :
    f ∈ (run_compareClassify pro dev ign).common_files ↔
      f ∈ get_all_files pro ign ∧ f ∈ get_all_files dev ign ∧
      pro.content f = dev.content f := by
  simp only [run_compareClassify, mem_common_files, mem_sortDedup, List.mem_append]
  tauto

theorem rcc_diff {pro dev : DirTreeFS} {ign : List String} {f : String} :
    f ∈ (run_compareClassify pro dev ign).diff_files ↔
      f ∈ get_all_files pro ign ∧ f ∈ get_all_files dev ign ∧
      ¬ (pro.content f = dev.content f) := by
  simp only [run_compareClassify, mem_diff_files, mem_sortDedup, List.mem_append]
  tauto

theorem rcc_only_pro {pro dev : DirTreeFS} {ign : List String} {f : String} :
    f ∈ (run_compareClassify pro dev ign).only_pro ↔
      f ∈ get_all_files pro ign ∧ f ∉ get_all_files dev ign := by
  simp only [run_compareClassify, mem_only_pro, mem_sortDedup, List.mem_append]
  tauto

theorem rcc_only_dev {pro dev : DirTreeFS} {ign : List String} {f : String} :
    f ∈ (run_compareClassify pro dev ign).only_dev ↔
      f ∉ get_all_files pro ign ∧ f ∈ get_all_files dev ign := by
  simp only [run_compareClassify, mem_only_dev, mem_sortDedup, List.mem_append]
  tauto

theorem if_isEmpty_map {α : Type} (l : List String) (g : String → α) :
    (if l.isEmpty then ([] : List α) else l.map g) = l.map g := by
  cases l <;> simp

end PipelineLemmas

section Samples

/-- A concrete PRO tree used to instantiate the theorems: files
`a.txt`, `b.txt`, `d.txt`, where `d.txt` has content differing from
the DEV side. -/
def proSample : DirTreeFS :=
  { pathExists := true,
    gitFiles := some ["a.txt", "b.txt", "d.txt"],
    walkFiles := [],
    content := fun f => if f = "d.txt" then [1] else [0],
    mtime := fun _ => 0 }

/-- A concrete DEV tree: files `a.txt`, `c.txt`, `d.txt`; `a.txt`
matches PRO byte for byte (at a different mtime), `d.txt` differs. -/
def devSample : DirTreeFS :=
  { pathExists := true,
    gitFiles := some ["a.txt", "c.txt", "d.txt"],
    walkFiles := [],
    content := fun f => if f = "d.txt" then [2] else [0],
    mtime := fun _ => 7 }

/-- A tree whose root does not exist on the filesystem. -/
def missingSample : DirTreeFS :=
  { pathExists := false,
    gitFiles := none,
    walkFiles := ["ghost.txt"],
    content := fun _ => [],
    mtime := fun _ => 0 }

/-- A tree listed by git where one path has a `node_modules`
component. -/
def gitListedSample : DirTreeFS :=
  { pathExists := true,
    gitFiles := some ["src/main.py", "node_modules/x.js"],
    walkFiles := [],
    content := fun _ => [],
    mtime := fun _ => 0 }

/-- A compare-session environment whose DEV tree is a repository with
an empty `.gitignore`. -/
def envSample : IgnoreEnv :=
  { proGitRoot := none,
    devGitRoot := some "/repo/dev",
    devIgnoreFile := some [] }

/-- The ignore target of the session samples: relative path
`logs/out.log`. -/
def targetSample : RelPath :=
  { dirs := ["logs".data], base := "out.log".data }

end Samples

/-- C1: for every comparison run, a path belongs to one of the four
classification buckets exactly when it belongs to the union of the two
enumerations, and the four buckets are pairwise disjoint — so each such
path is placed in exactly one bucket. -/
theorem claim_C1 (pro dev : DirTreeFS) (ign : List String) (f : String) :
    ((f ∈ get_all_files pro ign ∨ f ∈ get_all_files dev ign) ↔
      (f ∈ (run_compareClassify pro dev ign).common_files ∨
       f ∈ (run_compareClassify pro dev ign).diff_files ∨
       f ∈ (run_compareClassify pro dev ign).only_pro ∨
       f ∈ (run_compareClassify pro dev ign).only_dev)) ∧
    (f ∈ (run_compareClassify pro dev ign).common_files →
       f ∉ (run_compareClassify pro dev ign).diff_files ∧
       f ∉ (run_compareClassify pro dev ign).only_pro ∧
       f ∉ (run_compareClassify pro dev ign).only_dev) ∧
    (f ∈ (run_compareClassify pro dev ign).diff_files →
       f ∉ (run_compareClassify pro dev ign).only_pro ∧
       f ∉ (run_compareClassify pro dev ign).only_dev) ∧
    (f ∈ (run_compareClassify pro dev ign).only_pro →
       f ∉ (run_compareClassify pro dev ign).only_dev) := by
  simp only [rcc_common, rcc_diff, rcc_only_pro, rcc_only_dev]
  refine ⟨⟨fun h => ?_, fun h => ?_⟩, fun h => ?_, fun h => ?_, fun h => ?_⟩
  · by_cases h1 : f ∈ get_all_files pro ign <;>
      by_cases h2 : f ∈ get_all_files dev ign <;>
      by_cases h3 : pro.content f = dev.content f <;> tauto
  · tauto
  · tauto
  · tauto
  · tauto

/-- Witness for C1 at concrete trees: applying the partition theorem to
the shared file `a.txt` of the samples. -/
theorem claim_C1_witness :
    "a.txt" ∈ (run_compareClassify proSample devSample []).common_files ∨
    "a.txt" ∈ (run_compareClassify proSample devSample []).diff_files ∨
    "a.txt" ∈ (run_compareClassify proSample devSample []).only_pro ∨
    "a.txt" ∈ (run_compareClassify proSample devSample []).only_dev :=
  (claim_C1 proSample devSample [] "a.txt").1.mp (Or.inl (by decide))

/-- C2: a path present in both enumerations whose two byte contents are
equal is classified identical and never Modified; the classification
reads only the enumerations and the byte contents, so it is unchanged
under arbitrary modification times on both sides. -/
theorem claim_C2 (pro dev : DirTreeFS) (ign : List String) (f : String)
    (h1 : f ∈ get_all_files pro ign) (h2 : f ∈ get_all_files dev ign)
    (h3 : pro.content f = dev.content f) :
    f ∈ (run_compareClassify pro dev ign).common_files ∧
    f ∉ (run_compareClassify pro dev ign).diff_files ∧
    (∀ m1 m2 : String → Nat,
      run_compareClassify { pro with mtime := m1 } { dev with mtime := m2 } ign =
        run_compareClassify pro dev ign) := by
  refine ⟨rcc_common.mpr ⟨h1, h2, h3⟩, fun hd => ?_,
    fun m1 m2 => run_compareClassify_mtime pro dev ign m1 m2⟩
  exact (rcc_diff.mp hd).2.2 h3

/-- Witness for C2: `a.txt` is byte-identical in the two sample trees
(their mtimes differ) and lands in the identical bucket, not the
Modified one. -/
theorem claim_C2_witness :
    "a.txt" ∈ (run_compareClassify proSample devSample []).common_files ∧
    "a.txt" ∉ (run_compareClassify proSample devSample []).diff_files ∧
    (∀ m1 m2 : String → Nat,
      run_compareClassify { proSample with mtime := m1 }
          { devSample with mtime := m2 } [] =
        run_compareClassify proSample devSample []) :=
  claim_C2 proSample devSample [] "a.txt" (by decide) (by decide) (by decide)

/-- C5: the displayed list is the Modified entries, then the DEV-only
entries, then the PRO-only entries; each group is strictly sorted in
lexicographic string order; and the list depends only on the
enumerations and contents (two runs over unchanged trees — whatever
happened to mtimes — give the same list). -/
theorem claim_C5 (pro dev : DirTreeFS) (ign : List String) :
    (targetList (run_compareClassify pro dev ign) =
      (run_compareClassify pro dev ign).diff_files.map
          (fun f => ("diff", f, "MODIFIED")) ++
      (run_compareClassify pro dev ign).only_dev.map
          (fun f => ("dev_only", f, "DEV ONLY")) ++
      (run_compareClassify pro dev ign).only_pro.map
          (fun f => ("pro_only", f, "PRO ONLY"))) ∧
    (run_compareClassify pro dev ign).diff_files.Pairwise
      (fun a b => strLt a b = true) ∧
    (run_compareClassify pro dev ign).only_dev.Pairwise
      (fun a b => strLt a b = true) ∧
    (run_compareClassify pro dev ign).only_pro.Pairwise
      (fun a b => strLt a b = true) ∧
    (∀ m1 m2 : String → Nat,
      targetList (run_compareClassify { pro with mtime := m1 }
          { dev with mtime := m2 } ign) =
        targetList (run_compareClassify pro dev ign)) := by
  refine ⟨?_, ?_, ?_, ?_, fun m1 m2 => by
    rw [run_compareClassify_mtime]⟩
  · unfold targetList
    rw [if_isEmpty_map, if_isEmpty_map, if_isEmpty_map]
  · simp only [run_compareClassify, classifyFiles_eq_filters]
    exact pairwise_sortDedup.filter _
  · simp only [run_compareClassify, classifyFiles_eq_filters]
    exact pairwise_sortDedup.filter _
  · simp only [run_compareClassify, classifyFiles_eq_filters]
    exact pairwise_sortDedup.filter _

/-- Witness for C5: the concatenation shape of the displayed list at
the concrete sample trees. -/
theorem claim_C5_witness :
    targetList (run_compareClassify proSample devSample []) =
      (run_compareClassify proSample devSample []).diff_files.map
          (fun f => ("diff", f, "MODIFIED")) ++
      (run_compareClassify proSample devSample []).only_dev.map
          (fun f => ("dev_only", f, "DEV ONLY")) ++
      (run_compareClassify proSample devSample []).only_pro.map
          (fun f => ("pro_only", f, "PRO ONLY")) :=
  (claim_C5 proSample devSample []).1

/-- C3 counterexample: with an ignore file that already reads
`foo\nfoo\n`, running the write phase twice for pattern `foo` leaves
the file unchanged — it contains the pattern twice, not exactly
once, refuting the claim for arbitrary current content. -/
theorem claim_C3_counterexample :
    (addPatternToGitignore
        (addPatternToGitignore (some ("foo\nfoo\n".data)) ("foo".data)).1
        ("foo".data)).1 = some ("foo\nfoo\n".data) ∧
    countOcc ("foo".data)
      (((addPatternToGitignore
          (addPatternToGitignore (some ("foo\nfoo\n".data)) ("foo".data)).1
          ("foo".data)).1).getD []) = 2 ∧
    ¬ (countOcc ("foo".data)
        (((addPatternToGitignore
            (addPatternToGitignore (some ("foo\nfoo\n".data)) ("foo".data)).1
            ("foo".data)).1).getD []) = 1) := by
  refine ⟨by decide, by decide, by decide⟩

/-- C3 (amended): adding an ignore pattern is idempotent — the second
run detects the existing occurrence and returns success without
writing; and when the (nonempty, newline-free) pattern does not already
occur in the current ignore-file content, the run leaves exactly one
occurrence of it. -/
theorem claim_C3 (state : Option (List Char)) (pattern : List Char)
    (hne : pattern ≠ []) (hnl : nl ∉ pattern)
    (hfresh : containsSub pattern (state.getD []) = false) :
    addPatternToGitignore (addPatternToGitignore state pattern).1 pattern =
      addPatternToGitignore state pattern ∧
    countOcc pattern (((addPatternToGitignore state pattern).1).getD []) = 1 ∧
    (addPatternToGitignore state pattern).2 = true := by
  have hkey : ∀ content : List Char, containsSub pattern content = false →
      countOcc pattern (content ++ nl :: (pattern ++ [nl])) = 1 := by
    intro content hc
    rw [countOcc_append_nl hnl hne]
    have h1 : countOcc pattern content = 0 :=
      countOcc_eq_zero_of_not_contains hc
    have h2 : countOcc pattern (pattern ++ [nl]) = 1 := by
      have := countOcc_append_nl hnl hne pattern []
      simp only [countOcc, isPrefixOf_nil_of_ne hne, if_neg] at this
      simp only [this, countOcc_self hne]
      simp [isPrefixOf_nil_of_ne hne]
    omega
  have hcontains : ∀ content : List Char,
      containsSub pattern (content ++ nl :: (pattern ++ [nl])) = true := by
    intro content
    have := containsSub_append_self pattern (content ++ [nl]) [nl]
    simpa [List.append_assoc] using this
  cases state with
  | none =>
    simp only [Option.getD] at hfresh
    refine ⟨?_, ?_, rfl⟩
    · have hc := hcontains []
      simp only [List.nil_append] at hc
      simp [addPatternToGitignore, hc]
    · have hk := hkey [] hfresh
      simp only [List.nil_append] at hk
      simpa [addPatternToGitignore] using hk
  | some content =>
    simp only [Option.getD] at hfresh
    refine ⟨?_, ?_, ?_⟩
    · simp [addPatternToGitignore, hfresh, hcontains content]
    · simpa [addPatternToGitignore, hfresh] using hkey content hfresh
    · simp [addPatternToGitignore, hfresh]

/-- Witness for the amended C3: appending `out.log` to an ignore file
reading `build/\n` is idempotent and leaves exactly one occurrence. -/
theorem claim_C3_witness :
    addPatternToGitignore
        (addPatternToGitignore (some ("build/\n".data)) ("out.log".data)).1
        ("out.log".data) =
      addPatternToGitignore (some ("build/\n".data)) ("out.log".data) ∧
    countOcc ("out.log".data)
      (((addPatternToGitignore (some ("build/\n".data)) ("out.log".data)).1).getD [])
      = 1 ∧
    (addPatternToGitignore (some ("build/\n".data)) ("out.log".data)).2 = true :=
  claim_C3 (some ("build/\n".data)) ("out.log".data)
    (by decide) (by decide) (by decide)

/-- C4: the duplicate check of the write phase is plain substring
containment on the whole ignore-file content — any occurrence of the
pattern anywhere in the content (a longer pattern containing it
included) reports already-present and returns success without writing,
and only a pattern with no occurrence is appended on its own line. -/
theorem claim_C4 (content pattern : List Char) :
    (containsSub pattern content = true →
      addPatternToGitignore (some content) pattern = (some content, true)) ∧
    (containsSub pattern content = false →
      addPatternToGitignore (some content) pattern =
        (some (content ++ nl :: (pattern ++ [nl])), true)) := by
  constructor <;> intro h <;> simp [addPatternToGitignore, h]

/-- Witness for C4: `data.txt` occurs only inside the longer pattern
`reports/data.txt.bak`, yet the check reports already-present and the
file is left unchanged. -/
theorem claim_C4_witness :
    addPatternToGitignore (some ("reports/data.txt.bak\n".data))
        ("data.txt".data) =
      (some ("reports/data.txt.bak\n".data), true) :=
  (claim_C4 ("reports/data.txt.bak\n".data) ("data.txt".data)).1 (by decide)

/-- C6: the candidate patterns are exactly, in order, the exact
slash-joined path; `*` plus the extension when the name has a nonempty
suffix; and the parent directory followed by a slash when the parent is
non-trivial.  A target under `reports/` offers both the exact path and
the `reports/` pattern. -/
theorem claim_C6 (p : RelPath) :
    (ignoreOptions p =
      [joinSlash (p.dirs ++ [p.base])] ++
      (if ¬ (pathSuffix p.base = []) then [('*' :: pathSuffix p.base)] else []) ++
      (if ¬ (p.dirs = []) then [joinSlash p.dirs ++ ['/']] else [])) ∧
    ("reports/summary.txt".data) ∈
      ignoreOptions ⟨["reports".data], "summary.txt".data⟩ ∧
    ("reports/".data) ∈
      ignoreOptions ⟨["reports".data], "summary.txt".data⟩ := by
  refine ⟨?_, by decide, by decide⟩
  unfold ignoreOptions
  by_cases h1 : pathSuffix p.base = [] <;> by_cases h2 : p.dirs = [] <;>
    simp [h1, h2]

/-- C7: the ignore action of the compare session resolves the DEV
tree's git root only — without it the step reports failure and leaves
the ignore file untouched, and the step ignores the PRO root entirely;
after a successful addition the displayed classification is a fresh
full recomputation, independent of the stale in-memory sets. -/
theorem claim_C7 (old : Classification) (env : IgnoreEnv) (target : RelPath)
    (choice : Option Nat) (curPro curDev : DirTreeFS) (ign : List String) :
    (env.devGitRoot = none →
      compareIgnoreStep old env target choice curPro curDev ign =
        (env.devIgnoreFile, old)) ∧
    (∀ r : Option String,
      compareIgnoreStep old { env with proGitRoot := r } target choice
          curPro curDev ign =
        compareIgnoreStep old env target choice curPro curDev ign) ∧
    (∀ old' : Classification,
      (add_to_gitignore env.devIgnoreFile target choice).2 = true →
      env.devGitRoot ≠ none →
      (compareIgnoreStep old env target choice curPro curDev ign).2 =
        run_compareClassify curPro curDev ign ∧
      (compareIgnoreStep old' env target choice curPro curDev ign).2 =
        (compareIgnoreStep old env target choice curPro curDev ign).2) := by
  obtain ⟨pr, dr, fi⟩ := env
  refine ⟨fun h => ?_, fun r => rfl, fun old' hs hd => ?_⟩
  · cases h
    rfl
  · cases dr with
    | none => exact absurd rfl hd
    | some root =>
      simp only [compareIgnoreStep] at hs ⊢
      rw [if_pos hs, if_pos hs]
      exact ⟨rfl, rfl⟩

/-- Witness for C7 at the sample session: a successful addition of the
exact-path pattern shows a freshly recomputed classification, the same
whatever stale list the session held. -/
theorem claim_C7_witness :
    (compareIgnoreStep ⟨[], [], [], []⟩ envSample targetSample (some 0)
        proSample devSample []).2 =
      run_compareClassify proSample devSample [] ∧
    (compareIgnoreStep ⟨["stale"], [], [], []⟩ envSample targetSample (some 0)
        proSample devSample []).2 =
      (compareIgnoreStep ⟨[], [], [], []⟩ envSample targetSample (some 0)
          proSample devSample []).2 :=
  (claim_C7 ⟨[], [], [], []⟩ envSample targetSample (some 0)
      proSample devSample []).2.2 ⟨["stale"], [], [], []⟩ (by decide) (by decide)

/-- C8: an empty computed diff makes the renderer emit the explicit
no-differences message instead of printing nothing, and two files whose
decoded line sequences are equal (a file against itself included)
produce an empty diff and that message. -/
theorem claim_C8 (a b : List String) :
    (unified_diff a b = [] → show_file_diff a b = [noDiffMessage]) ∧
    (a = b → unified_diff a b = [] ∧ show_file_diff a b = [noDiffMessage]) := by
  constructor
  · intro h
    simp [show_file_diff, h]
  · rintro rfl
    refine ⟨unified_diff_self a, ?_⟩
    simp [show_file_diff, unified_diff_self a]

/-- Witness for C8: rendering two identical two-line files yields zero
diff lines and the message. -/
theorem claim_C8_witness :
    unified_diff ["alpha", "beta"] ["alpha", "beta"] = [] ∧
    show_file_diff ["alpha", "beta"] ["alpha", "beta"] = [noDiffMessage] :=
  (claim_C8 ["alpha", "beta"] ["alpha", "beta"]).2 rfl

/-- C9: the enumerator returns the empty set for a nonexistent root
(whatever the ignore names; being a total function it raises nothing),
and `run_compare` validates each root before enumerating, aborting with
the corresponding error outcome. -/
theorem claim_C9 (d pro dev : DirTreeFS) (ign : List String) :
    (d.pathExists = false → get_all_files d ign = []) ∧
    (pro.pathExists = false → run_compare pro dev ign = .errorMissingPro) ∧
    (pro.pathExists = true → dev.pathExists = false →
      run_compare pro dev ign = .errorMissingDev) := by
  refine ⟨fun h => ?_, fun h => ?_, fun h1 h2 => ?_⟩
  · simp [get_all_files, h]
  · simp [run_compare, h]
  · simp [run_compare, h1, h2]

/-- Witness for C9: the missing sample tree enumerates to nothing and
aborts the comparison with the PRO error. -/
theorem claim_C9_witness :
    get_all_files missingSample ["venv"] = [] ∧
    run_compare missingSample devSample [] = .errorMissingPro :=
  ⟨(claim_C9 missingSample missingSample devSample ["venv"]).1 rfl,
   (claim_C9 missingSample missingSample devSample []).2.1 rfl⟩

/-- C10: in both enumeration strategies no returned path has a
component in `ignore_names`; in the primary git-listing strategy the
returned set is exactly the nonempty listed paths with no ignored
component. -/
theorem claim_C10 (d : DirTreeFS) (ign : List String) :
    (∀ f n, f ∈ get_all_files d ign → n ∈ ign → n ∉ pathParts f) ∧
    (∀ lines f, d.pathExists = true → d.gitFiles = some lines →
      (f ∈ get_all_files d ign ↔
        f ∈ lines ∧ ¬ (f = "") ∧ ∀ n ∈ ign, n ∉ pathParts f)) := by
  constructor
  · intro f n hf hn hmem
    by_cases hex : d.pathExists = false
    · simp [get_all_files, hex] at hf
    · cases hg : d.gitFiles with
      | some lines =>
        simp only [get_all_files, if_neg hex, hg, List.mem_filter,
          Bool.and_eq_true, Bool.not_eq_true', List.any_eq_false,
          decide_eq_false_iff_not, decide_eq_true_eq] at hf
        exact hf.2.2 n hn hmem
      | none =>
        simp only [get_all_files, if_neg hex, hg, List.mem_filter,
          Bool.and_eq_true, Bool.not_eq_true', List.any_eq_false,
          decide_eq_false_iff_not, decide_eq_true_eq] at hf
        exact hf.2.2 n hn hmem
  · intro lines f hex hg
    have hex' : ¬ (d.pathExists = false) := by simp [hex]
    simp only [get_all_files, if_neg hex', hg, List.mem_filter,
      Bool.and_eq_true, Bool.not_eq_true', List.any_eq_false,
      decide_eq_false_iff_not, decide_eq_true_eq]

/-- Witness for C10: with the primary git listing in effect, the
returned path `src/main.py` has no `node_modules` component. -/
theorem claim_C10_witness :
    "node_modules" ∉ pathParts "src/main.py" :=
  (claim_C10 gitListedSample ["node_modules"]).1 "src/main.py" "node_modules"
    (by decide) (by decide)

end GitTool
